import Mathlib

/-!
Shallow embedding of the request-to-bytes pipeline of `src/main.rs`
(nar-toolbox): store-path parsing, metadata handling, codec selection,
the NAR walker, and the channel relay.  Strings are embedded as `List Char`
(the inputs of interest are single-byte characters, so Rust's byte-indexed
`str::get` coincides with character indexing on them).
-/

namespace NarToolbox

/-- Embedding of Rust `str::trim_end_matches("/")`: removes every trailing
occurrence of `'/'`. -/
def trimEndSlashes (s : List Char) : List Char :=
  (List.dropWhile (fun c => c = '/') s.reverse).reverse

/-- Fuel-driven core of `str::trim_start_matches(pat)` for a string pattern:
repeatedly strips `pat` from the front while it is a prefix.  The fuel is
instantiated with the string length, which bounds the number of strips. -/
def trimStartStrGo : Nat → List Char → List Char → List Char
  | 0, _, s => s
  | fuel + 1, pat, s =>
      if pat ≠ [] ∧ pat.isPrefixOf s then trimStartStrGo fuel pat (s.drop pat.length) else s

/-- Embedding of Rust `str::trim_start_matches(pat)` for a string pattern. -/
def trimStartMatchesStr (pat s : List Char) : List Char :=
  trimStartStrGo s.length pat s

/-- Embedding of `.get(..32).unwrap_or_default()` in `parse_full_nix_store_path`:
the first 32 characters when the string has at least 32, otherwise `""`. -/
def takeHash32 (s : List Char) : List Char :=
  if 32 ≤ s.length then s.take 32 else []

/-- Embedding of the `NixStorePath` struct of `src/main.rs`. -/
structure NixStorePath where
  hash : List Char
  file_path : Option (List Char)
deriving DecidableEq, Repr

/-- The part of nom's `opt(char '/')` that is consumed: `"/"` when the input
starts with `'/'`, `""` otherwise. -/
def leadOf (input : List Char) : List Char :=
  match input with
  | '/' :: _ => ['/']
  | _ => []

/-- The input left after nom's `opt(char '/')`. -/
def afterSlashOf (input : List Char) : List Char :=
  match input with
  | '/' :: r => r
  | _ => input

/-- Nom's `opt(preceded(char '/', rest))`: everything after a leading `'/'`,
or `none` when the input does not start with `'/'`. -/
def optSlashRest (rest1 : List Char) : Option (List Char) :=
  match rest1 with
  | '/' :: r => some r
  | _ => none

/-- Embedding of `parse_full_nix_store_path` (nom): `recognize(pair(opt(char '/'),
pair(tag "nix/store/", take_while1 (≠ '/'))))` followed by
`opt(preceded(char '/', rest))`; the hash is the recognized segment with the
leading slashes and every leading `"nix/store/"` trimmed, cut to 32 characters
(empty when shorter).  Returns `(remaining input, value)` as nom's `IResult`
(when the trailing `'/' rest` part is taken, the rest combinator consumes the
whole remainder, so the leftover input is empty). -/
def parseFullNixStorePath (input : List Char) : Option (List Char × NixStorePath) :=
  if ("nix/store/".data).isPrefixOf (afterSlashOf input) then
    let seg := ((afterSlashOf input).drop 10).takeWhile (fun c => c ≠ '/')
    if seg = [] then none
    else
      let rest1 := ((afterSlashOf input).drop 10).dropWhile (fun c => c ≠ '/')
      let hash := takeHash32 (trimStartMatchesStr ("nix/store/".data)
        (List.dropWhile (fun c => c = '/') (leadOf input ++ "nix/store/".data ++ seg)))
      match optSlashRest rest1 with
      | some r => some ([], NixStorePath.mk hash (some (trimEndSlashes r)))
      | none => some (rest1, NixStorePath.mk hash none)
  else none

/-- Embedding of `parse_hash_only_path` (nom): `take(32)` then
`opt(preceded(char '/', rest))`. -/
def parseHashOnlyPath (input : List Char) : Option (List Char × NixStorePath) :=
  if 32 ≤ input.length then
    match optSlashRest (input.drop 32) with
    | some r => some ([], NixStorePath.mk (input.take 32) (some (trimEndSlashes r)))
    | none => some (input.drop 32, NixStorePath.mk (input.take 32) none)
  else none

/-- Embedding of `parse_nix_store_path`: nom `alt` tries the full form first,
then the bare-hash form. -/
def parseNixStorePath (input : List Char) : Option (List Char × NixStorePath) :=
  match parseFullNixStorePath input with
  | some r => some r
  | none => parseHashOnlyPath input

/-- Embedding of `NixStorePath::parse`: any remaining unparsed input is
discarded, a parser error yields `None`. -/
def NixStorePath.parse (path : List Char) : Option NixStorePath :=
  (parseNixStorePath path).map Prod.snd

/-- Success condition of the full-form grammar, read off the parser: after an
optional leading `'/'` the input starts with `"nix/store/"` and at least one
further non-`'/'` character follows. -/
def fullFormApplies (s : List Char) : Bool :=
  ("nix/store/".data).isPrefixOf (afterSlashOf s) &&
    !((((afterSlashOf s).drop 10).takeWhile (fun c => c ≠ '/')).isEmpty)

end NarToolbox

namespace NarToolbox

mutual
/-- Archive node model.  Models the external `nix_compat::nar::reader` node
interface (spec section 3, ArchiveNode): a NAR stream encodes one root node; a
directory yields `(name, node)` entries strictly in stream order.  File
contents are byte lists; the executable flag plays no role in `search_nar`
and is omitted. -/
inductive Node : Type where
  | file : List Nat → Node
  | directory : Entries → Node
  | symlink : List Char → Node

/-- Ordered directory entries, as iterated by the directory cursor. -/
inductive Entries : Type where
  | nil : Entries
  | cons : List Char → Node → Entries → Entries
end

/-- Buffer size used by `stream_file` (`static BUFFER_SIZE: usize = 8192`). -/
def BUFFER_SIZE : Nat := 8192

/-- Fuel-driven chunking of a byte list into the successive non-empty reads of
at most `BUFFER_SIZE` bytes that `stream_file`'s read loop performs.  The fuel
is instantiated with the list length. -/
def chunksGo : Nat → List Nat → List (List Nat)
  | _, [] => []
  | 0, _ => []
  | fuel + 1, b :: bs =>
      (b :: bs.take (BUFFER_SIZE - 1)) :: chunksGo fuel (bs.drop (BUFFER_SIZE - 1))

/-- The sequence of buffer reads `stream_file` gets for a file body. -/
def chunksOf (bs : List Nat) : List (List Nat) :=
  chunksGo bs.length bs

/-- Embedding of `stream_file` with a live receiver: every read chunk is sent
iff `should_stream` holds; otherwise the bytes are read and discarded.  The
result is the list of chunks sent into the channel. -/
def streamFile (chunks : List (List Nat)) (shouldStream : Bool) : List (List Nat) :=
  if shouldStream then chunks else []

/-- Embedding of Rust `str::split_once('/')`. -/
def splitOnceSlash : List Char → Option (List Char × List Char)
  | [] => none
  | c :: rest =>
      if c = '/' then some ([], rest)
      else (splitOnceSlash rest).map (fun p => (c :: p.1, p.2))

/-- The `remaining_path` computed at the top of `search_nar`'s directory arm:
`target_path.split_once('/')` keeps the part after the first `'/'`, and an
input with no `'/'` yields `""` (the part before the slash, `dir_name`, is
computed by the source only for a debug log and never used for matching). -/
def splitRemainder (t : List Char) : List Char :=
  match splitOnceSlash t with
  | some p => p.2
  | none => []

mutual
/-- Embedding of `search_nar`: the list of chunks sent to the channel, in
order.  A root `File` is streamed with `should_stream = true` unconditionally;
a directory streams a file entry iff its name equals the whole remaining path,
recurses into every directory entry (the source calls `search_nar(entry.node,
remaining_path, tx)`, whose `Directory` arm is inlined here since the node is
known to be a directory), and skips symlink entries. -/
def searchNar : Node → List Char → List (List Nat)
  | Node.file bs, _ => streamFile (chunksOf bs) true
  | Node.symlink _, _ => []
  | Node.directory es, t => searchEntries es (splitRemainder t)

/-- Entry loop of `search_nar`'s directory arm. -/
def searchEntries : Entries → List Char → List (List Nat)
  | Entries.nil, _ => []
  | Entries.cons name n es, r =>
      (match n with
       | Node.file bs => streamFile (chunksOf bs) (name == r)
       | Node.directory es2 => searchEntries es2 (splitRemainder r)
       | Node.symlink _ => []) ++ searchEntries es r
end

end NarToolbox

namespace NarToolbox

/-- Walker state for the client-disconnect model: number of sends that have
succeeded, the chunks delivered to the receiver, and the number of buffer
reads the task has performed. -/
structure WSt where
  sent : Nat
  delivered : List (List Nat)
  reads : Nat
deriving DecidableEq, Repr

/-- Embedding of `stream_file` against a receiver that accepts exactly `k`
sends in total before its end is dropped: each loop iteration reads one
chunk (counted in `reads`, including the final zero-length read at end of
file); if `should_stream`, the chunk is sent, and a failed send (receiver
gone, i.e. `k` sends already succeeded) breaks the loop. -/
def streamFileD : List (List Nat) → Bool → Nat → WSt → WSt
  | [], _, _, st => WSt.mk st.sent st.delivered (st.reads + 1)
  | c :: rest, b, k, st =>
      if b then
        if st.sent < k then
          streamFileD rest b k (WSt.mk (st.sent + 1) (st.delivered ++ [c]) (st.reads + 1))
        else WSt.mk st.sent st.delivered (st.reads + 1)
      else streamFileD rest b k (WSt.mk st.sent st.delivered (st.reads + 1))

mutual
/-- Embedding of the spawned `search_nar` task against a receiver that accepts
exactly `k` sends before being dropped; threads the walker state through the
walk in stream order. -/
def searchNarD : Node → List Char → Nat → WSt → WSt
  | Node.file bs, _, k, st => streamFileD (chunksOf bs) true k st
  | Node.symlink _, _, _, st => st
  | Node.directory es, t, k, st => searchEntriesD es (splitRemainder t) k st

/-- Entry loop of `search_nar` in the disconnect model. -/
def searchEntriesD : Entries → List Char → Nat → WSt → WSt
  | Entries.nil, _, _, st => st
  | Entries.cons name n es, r, k, st =>
      searchEntriesD es r k
        (match n with
         | Node.file bs => streamFileD (chunksOf bs) (name == r) k st
         | Node.directory es2 => searchEntriesD es2 (splitRemainder r) k st
         | Node.symlink _ => st)
end

mutual
/-- Spec notion (section 4.4) of resolving an intra-archive path to a node of
the tree: follow the named entry at each level. -/
def specPathLookup : Node → List (List Char) → Option Node
  | n, [] => some n
  | Node.directory es, seg :: rest => specEntriesLookup es seg rest
  | Node.file _, _ :: _ => none
  | Node.symlink _, _ :: _ => none

/-- Entry lookup for `specPathLookup`. -/
def specEntriesLookup : Entries → List Char → List (List Char) → Option Node
  | Entries.nil, _, _ => none
  | Entries.cons name n es, seg, rest =>
      if name = seg then specPathLookup n rest else specEntriesLookup es seg rest
end

mutual
/-- No-match predicate under the walker's actual rule, read off `search_nar`:
a root `File` always matches (it is streamed unconditionally); in a directory
no file entry's name equals the remaining suffix at its depth, recursively in
every subdirectory. -/
def noMatchNode : Node → List Char → Bool
  | Node.file _, _ => false
  | Node.symlink _, _ => true
  | Node.directory es, t => noMatchEntries es (splitRemainder t)

/-- Entry part of `noMatchNode`. -/
def noMatchEntries : Entries → List Char → Bool
  | Entries.nil, _ => true
  | Entries.cons name n es, r =>
      (match n with
       | Node.file _ => !(name == r)
       | Node.directory es2 => noMatchEntries es2 (splitRemainder r)
       | Node.symlink _ => true) && noMatchEntries es r
end

/-- Metadata record model: the two fields of the external
`nix_compat::narinfo::NarInfo` consumed by `handle_request`. -/
structure NarInfo where
  url : List Char
  compression : Option (List Char)
deriving DecidableEq, Repr

/-- Splits a character list on a separator, keeping empty pieces. -/
def splitOnChar (sep : Char) : List Char → List (List Char)
  | [] => [[]]
  | c :: rest =>
      match splitOnChar sep rest with
      | [] => [[c]]
      | l :: ls => if c = sep then [] :: l :: ls else (c :: l) :: ls

/-- Value of the first line starting with `key`, with `key` stripped. -/
def findField (key : List Char) : List (List Char) → Option (List Char)
  | [] => none
  | l :: rest => if key.isPrefixOf l then some (l.drop key.length) else findField key rest

/-- Modelled from the spec: `NarInfo::parse` lives in the external
`nix_compat` crate, not under `src/`; spec section 4.2 describes the body as
a line-oriented `key: value` record where a missing or malformed `url` field
is a parse error and the `compression` field is optional. -/
def parseNarInfo (body : List Char) : Option NarInfo :=
  let lines := splitOnChar '\n' body
  match findField "URL: ".data lines with
  | none => none
  | some u => some (NarInfo.mk u (findField "Compression: ".data lines))

/-- The streaming decoders `handle_request` can select. -/
inductive Decoder : Type where
  | passthrough : Decoder
  | bzip2 : Decoder
  | gzip : Decoder
  | xz : Decoder
  | zstd : Decoder
deriving DecidableEq, Repr

/-- Embedding of the codec-selection `match narinfo.compression` in
`handle_request`: absent selects pass-through, the four known tags select
their decoders, and any other tag is an error carrying the tag. -/
def selectDecoder : Option (List Char) → Except (List Char) Decoder
  | none => Except.ok Decoder.passthrough
  | some t =>
      if t = "bzip2".data then Except.ok Decoder.bzip2
      else if t = "gzip".data then Except.ok Decoder.gzip
      else if t = "xz".data then Except.ok Decoder.xz
      else if t = "zstd".data then Except.ok Decoder.zstd
      else Except.error t

/-- Outcome of `handle_request` as observed by the client. -/
inductive HRes : Type where
  | plain : Nat → List Char → HRes
  | crashed : HRes
  | stream : Nat → List (List Nat) → HRes
deriving DecidableEq, Repr

/-- Upstream environment of one request: the result of the `.narinfo` GET
(`none` models a network error) as status and body, and the result of the NAR
GET as status and the tree decoded from its (decompressed) body.  Byte-level
decompression and NAR decoding are performed by external crates and are
abstracted to the decoded tree. -/
structure Env where
  narinfo : Option (Nat × List Char)
  nar : Option (Nat × Node)

/-- Rust `StatusCode::is_success`: 2xx. -/
def isSuccess (s : Nat) : Bool :=
  200 ≤ s && s ≤ 299

/-- The target path handed to the spawned walker:
`store_path.file_path.map(|s| format!("/{}", s)).unwrap_or("/")`. -/
def targetOf (sp : NixStorePath) : List Char :=
  match sp.file_path with
  | some fp => '/' :: fp
  | none => ['/']

/-- Embedding of `handle_request`.  Mirrors the source's order: path parse
(404 on failure); narinfo GET (`reqwest::get(..).unwrap()` — a network error
panics the handler, and the response status is never inspected);
`NarInfo::parse(..).unwrap()` (a parse failure panics); NAR GET (network error
gives 500, non-success status 502); codec selection (unknown tag gives 500
naming it); then the response is committed with status 200 and the spawned
walker's chunks as the streamed body. -/
def handle (path : List Char) (env : Env) : HRes :=
  match NixStorePath.parse path with
  | none => HRes.plain 404 "Not found".data
  | some sp =>
      match env.narinfo with
      | none => HRes.crashed
      | some (_, body) =>
          match parseNarInfo body with
          | none => HRes.crashed
          | some ni =>
              match env.nar with
              | none => HRes.plain 500 "Failed to fetch NAR".data
              | some (narStatus, tree) =>
                  if isSuccess narStatus then
                    match selectDecoder ni.compression with
                    | Except.error t =>
                        HRes.plain 500 ("Unsupported compression: ".data ++ t)
                    | Except.ok _ => HRes.stream 200 (searchNar tree (targetOf sp))
                  else HRes.plain 502 "Failed to fetch NAR".data

end NarToolbox

namespace NarToolbox

theorem takeWhile_append_all {p : Char → Bool} :
    ∀ (l1 l2 : List Char), (∀ c ∈ l1, p c = true) →
      (l1 ++ l2).takeWhile p = l1 ++ l2.takeWhile p
  | [], l2, _ => by simp
  | c :: cs, l2, h => by
      have hc : p c = true := h c (List.mem_cons_self c cs)
      have ih := takeWhile_append_all cs l2 (fun x hx => h x (List.mem_cons_of_mem c hx))
      simp [List.takeWhile_cons, hc, ih]

theorem dropWhile_append_all {p : Char → Bool} :
    ∀ (l1 l2 : List Char), (∀ c ∈ l1, p c = true) →
      (l1 ++ l2).dropWhile p = l2.dropWhile p
  | [], l2, _ => by simp
  | c :: cs, l2, h => by
      have hc : p c = true := h c (List.mem_cons_self c cs)
      have ih := dropWhile_append_all cs l2 (fun x hx => h x (List.mem_cons_of_mem c hx))
      simp [List.dropWhile_cons, hc, ih]

theorem isPrefixOf_append_self (l1 l2 : List Char) : l1.isPrefixOf (l1 ++ l2) = true :=
  List.isPrefixOf_iff_prefix.mpr (List.prefix_append l1 l2)

theorem isPrefixOf_false_of_mem {pat s : List Char} {c : Char}
    (hc : c ∈ pat) (hs : c ∉ s) : pat.isPrefixOf s = false := by
  cases h : pat.isPrefixOf s with
  | false => rfl
  | true =>
      exact absurd ((List.isPrefixOf_iff_prefix.mp h).subset hc) hs

theorem trimStartStrGo_of_not_prefix {pat s : List Char} (h : pat.isPrefixOf s = false) :
    ∀ fuel, trimStartStrGo fuel pat s = s
  | 0 => rfl
  | fuel + 1 => by simp [trimStartStrGo, h]

theorem trimStartStrGo_step {pat s : List Char} (hne : pat ≠ [])
    (hpre : pat.isPrefixOf s = true) (fuel : Nat) :
    trimStartStrGo (fuel + 1) pat s = trimStartStrGo fuel pat (s.drop pat.length) := by
  simp [trimStartStrGo, hne, hpre]

theorem trimStartStrGo_length_le : ∀ (fuel : Nat) (pat s : List Char),
    (trimStartStrGo fuel pat s).length ≤ s.length
  | 0, _, _ => Nat.le_refl _
  | fuel + 1, pat, s => by
      simp only [trimStartStrGo]
      split
      · exact Nat.le_trans (trimStartStrGo_length_le fuel pat _)
          (by simp [List.length_drop])
      · exact Nat.le_refl _

theorem chunksGo_flatten : ∀ (fuel : Nat) (bs : List Nat), bs.length ≤ fuel →
    (chunksGo fuel bs).flatten = bs
  | _, [], _ => by simp [chunksGo]
  | 0, b :: bs, h => by simp at h
  | fuel + 1, b :: bs, h => by
      have hb : bs.length + 1 ≤ fuel + 1 := by simpa using h
      have hlen : (bs.drop (BUFFER_SIZE - 1)).length ≤ fuel := by
        simp only [List.length_drop]
        omega
      simp [chunksGo, chunksGo_flatten fuel _ hlen, List.take_append_drop]

theorem chunksOf_flatten (bs : List Nat) : (chunksOf bs).flatten = bs :=
  chunksGo_flatten bs.length bs (Nat.le_refl _)

end NarToolbox
namespace NarToolbox

theorem streamFileD_spec : ∀ (chunks : List (List Nat)) (b : Bool) (k : Nat) (st : WSt),
    st.sent ≤ k →
    (streamFileD chunks b k st).sent
        = st.sent + Nat.min (if b then chunks.length else 0) (k - st.sent) ∧
    (streamFileD chunks b k st).delivered
        = st.delivered ++ (if b then chunks.take (k - st.sent) else []) ∧
    (streamFileD chunks b k st).reads
        = st.reads + (if b = true ∧ k - st.sent < chunks.length then (k - st.sent) + 1
            else chunks.length + 1)
  | [], b, k, st, h => by
      cases b <;> simp [streamFileD]
  | c :: rest, b, k, st, h => by
      cases b with
      | false =>
          have ih := streamFileD_spec rest false k (WSt.mk st.sent st.delivered (st.reads + 1)) h
          simp only [streamFileD, if_neg (Bool.false_ne_true)] at *
          refine ⟨by simpa using ih.1, by simpa using ih.2.1, ?_⟩
          have := ih.2.2
          simp at this ⊢
          omega
      | true =>
          by_cases hk : st.sent < k
          · have ih := streamFileD_spec rest true k
              (WSt.mk (st.sent + 1) (st.delivered ++ [c]) (st.reads + 1)) hk
            simp only [streamFileD, if_pos trivial, if_pos hk] at *
            refine ⟨?_, ?_, ?_⟩
            · have := ih.1
              simp only [Nat.min_def] at this ⊢
              simp at this ⊢
              split_ifs at this ⊢ <;> omega
            · have := ih.2.1
              simp only at this
              rw [this]
              have hm : k - st.sent = (k - (st.sent + 1)) + 1 := by omega
              rw [hm, List.take_succ_cons, List.append_assoc]
              simp
            · have := ih.2.2
              simp at this ⊢
              split_ifs at this ⊢ <;> omega
          · simp only [streamFileD, if_pos trivial, if_neg hk]
            have hz : k - st.sent = 0 := by omega
            refine ⟨?_, ?_, ?_⟩
            · simp [hz]
            · simp [hz]
            · simp [hz]

end NarToolbox
namespace NarToolbox

theorem min_concat_sent (a b k s : Nat) (hs : s ≤ k) :
    s + Nat.min a (k - s) + Nat.min b (k - (s + Nat.min a (k - s)))
      = s + Nat.min (a + b) (k - s) := by
  simp only [Nat.min_def]
  split_ifs <;> omega

theorem sub_sent_eq (a k s : Nat) (hs : s ≤ k) :
    k - (s + Nat.min a (k - s)) = (k - s) - a := by
  simp only [Nat.min_def]
  split_ifs <;> omega

theorem sent_after_le (a k s : Nat) (hs : s ≤ k) :
    s + Nat.min a (k - s) ≤ k := by
  simp only [Nat.min_def]
  split_ifs <;> omega

mutual
theorem searchNarD_spec : ∀ (n : Node) (t : List Char) (k : Nat) (st : WSt), st.sent ≤ k →
    (searchNarD n t k st).sent = st.sent + Nat.min (searchNar n t).length (k - st.sent) ∧
    (searchNarD n t k st).delivered = st.delivered ++ (searchNar n t).take (k - st.sent)
  | Node.file bs, t, k, st, h => by
      have l1 := streamFileD_spec (chunksOf bs) true k st h
      simp only [searchNarD, searchNar, streamFile, if_pos trivial] at *
      exact ⟨l1.1, l1.2.1⟩
  | Node.symlink s, t, k, st, h => by
      simp [searchNarD, searchNar]
  | Node.directory es, t, k, st, h => by
      have ih := searchEntriesD_spec es (splitRemainder t) k st h
      simpa [searchNarD, searchNar] using ih

theorem searchEntriesD_spec : ∀ (es : Entries) (r : List Char) (k : Nat) (st : WSt),
    st.sent ≤ k →
    (searchEntriesD es r k st).sent
        = st.sent + Nat.min (searchEntries es r).length (k - st.sent) ∧
    (searchEntriesD es r k st).delivered
        = st.delivered ++ (searchEntries es r).take (k - st.sent)
  | Entries.nil, r, k, st, h => by
      simp [searchEntriesD, searchEntries]
  | Entries.cons name n es, r, k, st, h => by
      cases n with
      | file bs =>
          have l1 := streamFileD_spec (chunksOf bs) (name == r) k st h
          cases hb : (name == r) with
          | true =>
              rw [hb] at l1
              have hsent1 : (streamFileD (chunksOf bs) true k st).sent
                  = st.sent + Nat.min (chunksOf bs).length (k - st.sent) := by
                simpa using l1.1
              have hdel1 : (streamFileD (chunksOf bs) true k st).delivered
                  = st.delivered ++ (chunksOf bs).take (k - st.sent) := by
                simpa using l1.2.1
              have hle : (streamFileD (chunksOf bs) true k st).sent ≤ k := by
                rw [hsent1]; exact sent_after_le _ _ _ h
              have ih := searchEntriesD_spec es r k (streamFileD (chunksOf bs) true k st) hle
              simp only [searchEntriesD, searchEntries, streamFile, hb, if_pos trivial]
              constructor
              · rw [ih.1, hsent1, List.length_append]
                exact min_concat_sent _ _ _ _ h
              · rw [ih.2, hdel1, hsent1, List.append_assoc]
                congr 1
                rw [List.take_append_eq_append_take]
                congr 1
                rw [sub_sent_eq _ k st.sent h]
          | false =>
              rw [hb] at l1
              have hsent1 : (streamFileD (chunksOf bs) false k st).sent = st.sent := by
                simpa using l1.1
              have hdel1 : (streamFileD (chunksOf bs) false k st).delivered = st.delivered := by
                simpa using l1.2.1
              have hle : (streamFileD (chunksOf bs) false k st).sent ≤ k := by rw [hsent1]; exact h
              have ih := searchEntriesD_spec es r k (streamFileD (chunksOf bs) false k st) hle
              simp only [searchEntriesD, searchEntries, streamFile, hb]
              constructor
              · rw [ih.1, hsent1]
                simp
              · rw [ih.2, hdel1, hsent1]
                simp
      | directory es2 =>
          have inner := searchEntriesD_spec es2 (splitRemainder r) k st h
          have hle : (searchEntriesD es2 (splitRemainder r) k st).sent ≤ k := by
            rw [inner.1]; exact sent_after_le _ _ _ h
          have ih := searchEntriesD_spec es r k (searchEntriesD es2 (splitRemainder r) k st) hle
          simp only [searchEntriesD, searchEntries]
          constructor
          · rw [ih.1, inner.1, List.length_append]
            exact min_concat_sent _ _ _ _ h
          · rw [ih.2, inner.2, inner.1, List.append_assoc]
            congr 1
            rw [List.take_append_eq_append_take]
            congr 1
            rw [sub_sent_eq _ k st.sent h]
      | symlink s =>
          have ih := searchEntriesD_spec es r k st h
          simp only [searchEntriesD, searchEntries]
          constructor
          · rw [ih.1]
            simp
          · rw [ih.2]
            simp
end

end NarToolbox
namespace NarToolbox

mutual
theorem noMatchNode_sends_nothing : ∀ (n : Node) (t : List Char),
    noMatchNode n t = true → searchNar n t = []
  | Node.file bs, t, h => by simp [noMatchNode] at h
  | Node.symlink _, t, _ => rfl
  | Node.directory es, t, h => by
      have := noMatchEntries_sends_nothing es (splitRemainder t) (by simpa [noMatchNode] using h)
      simpa [searchNar] using this

theorem noMatchEntries_sends_nothing : ∀ (es : Entries) (r : List Char),
    noMatchEntries es r = true → searchEntries es r = []
  | Entries.nil, r, _ => rfl
  | Entries.cons name n es, r, h => by
      cases n with
      | file bs =>
          have hparts : ¬ name = r ∧ noMatchEntries es r = true := by
            simpa [noMatchEntries] using h
          have h2 := noMatchEntries_sends_nothing es r hparts.2
          simp [searchEntries, streamFile, hparts.1, h2]
      | directory es2 =>
          have hparts : noMatchEntries es2 (splitRemainder r) = true
              ∧ noMatchEntries es r = true := by
            simpa [noMatchEntries] using h
          have h1 := noMatchEntries_sends_nothing es2 (splitRemainder r) hparts.1
          have h2 := noMatchEntries_sends_nothing es r hparts.2
          simp [searchEntries, h1, h2]
      | symlink s =>
          have h2 := noMatchEntries_sends_nothing es r (by simpa [noMatchEntries] using h)
          simp [searchEntries, h2]
end

end NarToolbox
namespace NarToolbox

/-- C1: the claim says the walker recurses into a directory entry only when the
entry's name equals the current path segment and that a non-matching entry's
bytes are never forwarded.  Evaluating the embedded `search_nar` at the failing
input — the tree `{a/{c: [1]}, b/{c: [2]}}` with requested path `b/c` — shows
the walker descends into `a` (whose name differs from the segment `b`) and
forwards `a/c`'s byte `1` before `b/c`'s byte `2`: the source computes
`dir_name` but never compares it, recursing into every subdirectory. -/
theorem claim1_walker_streams_sibling_bytes :
    searchNar
      (Node.directory (Entries.cons "a".data
        (Node.directory (Entries.cons "c".data (Node.file [1]) Entries.nil))
        (Entries.cons "b".data
          (Node.directory (Entries.cons "c".data (Node.file [2]) Entries.nil))
          Entries.nil)))
      "/b/c".data
      = [[1], [2]] := rfl

/-- C2 counterexample: a `File` node reached by `search_nar` itself (the
archive root) is streamed even though the remaining target path `"/x"` is not
empty, refuting the claimed "only if the remaining path is empty". -/
theorem claim2_root_file_streamed :
    searchNar (Node.file [7]) "/x".data = [[7]] ∧ "/x".data ≠ [] :=
  ⟨rfl, by decide⟩

/-- C2 amended: a `File` node reached by `search_nar` itself (only the archive
root) is streamed unconditionally, its chunks concatenating to exactly its
contents; a file entry inside a directory is streamed iff its name equals the
entire remaining target path at that depth (so that the path is fully consumed
by the match), and otherwise contributes nothing to the relay while the walk
continues with the remaining entries. -/
theorem claim2_file_streaming_amended :
    (∀ (bs : List Nat) (t : List Char),
        searchNar (Node.file bs) t = chunksOf bs ∧
        (searchNar (Node.file bs) t).flatten = bs) ∧
    (∀ (name : List Char) (bs : List Nat) (es : Entries) (t : List Char),
        searchNar (Node.directory (Entries.cons name (Node.file bs) es)) t =
          (if name = splitRemainder t then chunksOf bs else []) ++
            searchNar (Node.directory es) t) := by
  constructor
  · intro bs t
    refine ⟨by simp [searchNar, streamFile], ?_⟩
    simp [searchNar, streamFile, chunksOf_flatten]
  · intro name bs es t
    by_cases hb : name = splitRemainder t <;>
      simp [searchNar, searchEntries, streamFile, hb]

/-- C3: the claim says a non-success status on the `.narinfo` GET is answered
with 502 without parsing the body.  In the source the status of that response
is never inspected: `reqwest::get(uri).await.unwrap().text().await.unwrap()`
reads the body regardless, and `NarInfo::parse(&raw).unwrap()` then panics on
the non-narinfo error body, so the task crashes instead of answering 502
(the 502 in `handle_request` guards only the NAR body fetch). -/
theorem claim3_narinfo_status_ignored :
    handle "/nix/store/8h6x8md74j4b4xcy4xd9y4cc210hhaxx-foo".data
      (Env.mk (some (404, "Not found".data)) (some (200, Node.file [1])))
      = HRes.crashed := by decide

/-- C4 counterexample: with the receiver dropped from the start (`k = 0`) and
the tree `{b: [5], c/{d: [7]}}` with target `/b`, the first send fails during
read 1, yet the task performs two further buffer reads (draining `c/d`) before
terminating: three reads in total, refuting "terminates within one buffer-read
cycle". -/
theorem claim4_reads_after_disconnect :
    searchNarD
      (Node.directory (Entries.cons "b".data (Node.file [5])
        (Entries.cons "c".data
          (Node.directory (Entries.cons "d".data (Node.file [7]) Entries.nil))
          Entries.nil)))
      "/b".data 0 (WSt.mk 0 [] 0)
      = WSt.mk 0 [] 3 ∧ (1 : Nat) < (WSt.mk 0 ([] : List (List Nat)) 3).reads :=
  ⟨rfl, by decide⟩

/-- C5 counterexample: the input `nix/store/a` has fewer than 32 characters
yet resolves successfully (with an empty hash, since `.get(..32)` falls back
to the default), and the handler proceeds to stream instead of answering 404. -/
theorem claim5_short_input_parses :
    ("nix/store/a".data).length < 32 ∧
    NixStorePath.parse "nix/store/a".data = some (NixStorePath.mk [] none) ∧
    handle "nix/store/a".data
        (Env.mk (some (200, "URL: n".data)) (some (200, Node.file [3])))
      = HRes.stream 200 [[3]] :=
  ⟨by decide, by decide, by decide⟩

/-- C7 counterexample: in the tree `{a/{c: [1]}}` the requested path `b/c`
matches no node (the spec-level lookup fails), yet the walker still forwards
`a/c`'s byte and the client receives a non-empty 200 body. -/
theorem claim7_absent_path_streams_bytes :
    specPathLookup
      (Node.directory (Entries.cons "a".data
        (Node.directory (Entries.cons "c".data (Node.file [1]) Entries.nil))
        Entries.nil))
      ["b".data, "c".data] = none ∧
    handle ("aaaaaaaaaaaaaaaaaaaaaaaaaaaaaaaa".data ++ "/b/c".data)
        (Env.mk (some (200, "URL: n".data))
          (some (200, Node.directory (Entries.cons "a".data
            (Node.directory (Entries.cons "c".data (Node.file [1]) Entries.nil))
            Entries.nil))))
      = HRes.stream 200 [[1]] :=
  ⟨rfl, by decide⟩

/-- C8 counterexample: for `h` taken as 32 `'/'` characters (allowed by the
claim, which constrains only `name`), the full-form parse fails on
`take_while1` and the bare-hash parse takes over, yielding a hash that is the
first 32 characters of the whole input rather than `h`. -/
theorem claim8_slash_hash_counterexample :
    NixStorePath.parse ("/nix/store/".data ++ List.replicate 32 '/' ++ "-n/r".data)
      ≠ some (NixStorePath.mk (List.replicate 32 '/') (some "r".data)) ∧
    NixStorePath.parse ("/nix/store/".data ++ List.replicate 32 '/' ++ "-n/r".data)
      = some (NixStorePath.mk ("/nix/store/".data ++ List.replicate 21 '/')
          (some (List.replicate 10 '/' ++ "-n/r".data))) :=
  ⟨by decide, by decide⟩

end NarToolbox
namespace NarToolbox

/-- C9: under the bare-hash grammar an input of exactly 32 characters yields
those characters as the hash with no intra-path; 32 characters followed by
`'/'` and a remaining path yield that hash and the remaining path with
trailing slashes stripped; and the spec's example input resolves to its first
32 characters and the remainder unchanged. -/
theorem claim9_bare_hash_form :
    (∀ (h rest : List Char), h.length = 32 →
      parseHashOnlyPath h = some ([], NixStorePath.mk h none) ∧
      parseHashOnlyPath (h ++ '/' :: rest)
        = some ([], NixStorePath.mk h (some (trimEndSlashes rest)))) ∧
    NixStorePath.parse
        "zhpwxx771lz7hdyiv9f611w80wja0vsn/nix-2.26.0pre19700101_838d3c1-aarch64-darwin.tar.xz".data
      = some (NixStorePath.mk "zhpwxx771lz7hdyiv9f611w80wja0vsn".data
          (some "nix-2.26.0pre19700101_838d3c1-aarch64-darwin.tar.xz".data)) := by
  constructor
  · intro h rest hlen
    constructor
    · have hd : h.drop 32 = [] := by rw [← hlen, List.drop_length]
      have ht : h.take 32 = h := by rw [← hlen, List.take_length]
      simp [parseHashOnlyPath, optSlashRest, hd, ht, hlen]
    · have hd : (h ++ '/' :: rest).drop 32 = '/' :: rest := by
        rw [← hlen, List.drop_left]
      have ht : (h ++ '/' :: rest).take 32 = h := by
        rw [← hlen, List.take_left]
      have hge : 32 ≤ (h ++ '/' :: rest).length := by
        rw [List.length_append]
        omega
      simp only [parseHashOnlyPath, hd, ht, optSlashRest, if_pos hge]
  · decide

/-- C9 witness: the general part applied at a concrete 32-character hash and
remainder. -/
theorem claim9_bare_hash_form_witness :
    ("abcdefghijklmnopqrstuvwxyz012345".data).length = 32 ∧
    (parseHashOnlyPath "abcdefghijklmnopqrstuvwxyz012345".data
        = some ([], NixStorePath.mk "abcdefghijklmnopqrstuvwxyz012345".data none) ∧
      parseHashOnlyPath ("abcdefghijklmnopqrstuvwxyz012345".data ++ '/' :: "x/".data)
        = some ([], NixStorePath.mk "abcdefghijklmnopqrstuvwxyz012345".data
            (some (trimEndSlashes "x/".data)))) :=
  ⟨by decide, claim9_bare_hash_form.1 "abcdefghijklmnopqrstuvwxyz012345".data "x/".data (by decide)⟩

/-- C6: codec selection is exactly the claimed mapping — absent is
pass-through, the four known tags select their decoders — and any other
non-empty tag makes the handler answer 500 with a message naming the tag. -/
theorem claim6_codec_selection :
    selectDecoder none = Except.ok Decoder.passthrough ∧
    selectDecoder (some "bzip2".data) = Except.ok Decoder.bzip2 ∧
    selectDecoder (some "gzip".data) = Except.ok Decoder.gzip ∧
    selectDecoder (some "xz".data) = Except.ok Decoder.xz ∧
    selectDecoder (some "zstd".data) = Except.ok Decoder.zstd ∧
    (∀ (p : List Char) (e : Env) (sp : NixStorePath) (st : Nat) (body : List Char)
        (ni : NarInfo) (tag : List Char) (ns : Nat) (tree : Node),
      NixStorePath.parse p = some sp →
      e.narinfo = some (st, body) →
      parseNarInfo body = some ni →
      ni.compression = some tag →
      e.nar = some (ns, tree) →
      isSuccess ns = true →
      tag ≠ "bzip2".data → tag ≠ "gzip".data → tag ≠ "xz".data → tag ≠ "zstd".data →
      tag ≠ [] →
      handle p e = HRes.plain 500 ("Unsupported compression: ".data ++ tag)) := by
  refine ⟨rfl, rfl, rfl, rfl, rfl, ?_⟩
  intro p e sp st body ni tag ns tree hp hni hparse hcomp hnar hok h1 h2 h3 h4 _
  obtain ⟨ni1, ni2⟩ := e
  simp only at hni hnar
  subst hni hnar
  simp only [handle, hp, hparse, hok, hcomp, selectDecoder, if_neg h1,
    if_neg h2, if_neg h3, if_neg h4, if_true]

/-- C6 witness: the handler part applied with an unknown tag `lz4`. -/
theorem claim6_codec_selection_witness :
    handle "abcdefghijklmnopqrstuvwxyz012345".data
        (Env.mk (some (200, ('U' :: 'R' :: 'L' :: ':' :: ' ' :: 'n' :: '\n' ::
          "Compression: lz4".data))) (some (200, Node.file [1])))
      = HRes.plain 500 ("Unsupported compression: ".data ++ "lz4".data) :=
  claim6_codec_selection.2.2.2.2.2
    "abcdefghijklmnopqrstuvwxyz012345".data
    (Env.mk (some (200, ('U' :: 'R' :: 'L' :: ':' :: ' ' :: 'n' :: '\n' ::
      "Compression: lz4".data))) (some (200, Node.file [1])))
    (NixStorePath.mk "abcdefghijklmnopqrstuvwxyz012345".data none)
    200 ('U' :: 'R' :: 'L' :: ':' :: ' ' :: 'n' :: '\n' :: "Compression: lz4".data)
    (NarInfo.mk "n".data (some "lz4".data)) "lz4".data 200 (Node.file [1])
    (by decide) rfl (by decide) rfl rfl (by decide)
    (by decide) (by decide) (by decide) (by decide) (by decide)

end NarToolbox
namespace NarToolbox

/-- C10: an input that does not begin with the optionally `'/'`-prefixed
literal `"nix/store/"`, is longer than 32 characters, and whose character at
index 32 is not `'/'`, still resolves under the bare-hash parse: the hash is
the first 32 characters, the intra-path is `none`, and everything past index
32 is silently ignored (it is the unconsumed remaining input, which
`NixStorePath::parse` discards). -/
theorem claim10_suffix_ignored (s : List Char)
    (h1 : ("nix/store/".data).isPrefixOf s = false)
    (h2 : ("/nix/store/".data).isPrefixOf s = false)
    (h3 : 32 < s.length) (h4 : s[32]? ≠ some '/') :
    NixStorePath.parse s = some (NixStorePath.mk (s.take 32) none) := by
  have hfull : parseFullNixStorePath s = none := by
    cases s with
    | nil => simp at h3
    | cons c cs =>
        by_cases hc : c = '/'
        · subst hc
          have hpre : ("nix/store/".data).isPrefixOf cs = false := by
            simpa [List.isPrefixOf] using h2
          simp [parseFullNixStorePath, afterSlashOf, hpre]
        · have hpre : ("nix/store/".data).isPrefixOf (c :: cs) = false := h1
          simp [parseFullNixStorePath, afterSlashOf, hc, hpre]
  have hnoslash : optSlashRest (s.drop 32) = none := by
    rcases hd : s.drop 32 with _ | ⟨c, r⟩
    · rfl
    · have hc : ¬ c = '/' := by
        intro hcc
        apply h4
        rw [← List.head?_drop, hd, hcc]
        rfl
      simp [optSlashRest, hc]
  have hbare : parseHashOnlyPath s
      = some (s.drop 32, NixStorePath.mk (s.take 32) none) := by
    simp only [parseHashOnlyPath, hnoslash, if_pos (by omega : 32 ≤ s.length)]
  simp only [NixStorePath.parse, parseNixStorePath, hfull, hbare]
  rfl

/-- C10 witness: the theorem applied at 32 `'a'` characters followed by
`"bcd"`. -/
theorem claim10_suffix_ignored_witness :
    (("nix/store/".data).isPrefixOf (List.replicate 32 'a' ++ "bcd".data) = false ∧
      ("/nix/store/".data).isPrefixOf (List.replicate 32 'a' ++ "bcd".data) = false ∧
      32 < (List.replicate 32 'a' ++ "bcd".data).length ∧
      (List.replicate 32 'a' ++ "bcd".data)[32]? ≠ some '/') ∧
    NixStorePath.parse (List.replicate 32 'a' ++ "bcd".data)
      = some (NixStorePath.mk ((List.replicate 32 'a' ++ "bcd".data).take 32) none) :=
  ⟨⟨by decide, by decide, by decide, by decide⟩,
    claim10_suffix_ignored (List.replicate 32 'a' ++ "bcd".data)
      (by decide) (by decide) (by decide) (by decide)⟩

end NarToolbox
namespace NarToolbox

theorem trimStartMatchesStr_tag_once {A : List Char} (hA : '/' ∉ A) :
    trimStartMatchesStr "nix/store/".data ("nix/store/".data ++ A) = A := by
  have hlen : ("nix/store/".data ++ A).length = (9 + A.length) + 1 := by
    simp [List.length_append]
    omega
  rw [trimStartMatchesStr, hlen,
    trimStartStrGo_step (by decide) (isPrefixOf_append_self _ _)]
  have hdropA : ("nix/store/".data ++ A).drop ("nix/store/".data).length = A :=
    List.drop_left _ _
  rw [hdropA]
  exact trimStartStrGo_of_not_prefix
    (isPrefixOf_false_of_mem (by decide : '/' ∈ "nix/store/".data) hA) _

theorem parseFull_shape {A : List Char} (rest : List Char) (hA : '/' ∉ A) (hne : A ≠ []) :
    parseFullNixStorePath ('/' :: ("nix/store/".data ++ (A ++ '/' :: rest)))
      = some ([], NixStorePath.mk (takeHash32 A) (some (trimEndSlashes rest))) := by
  have hAall : ∀ c ∈ A, (fun c => decide (c ≠ '/')) c = true := by
    intro c hc
    simp only [decide_eq_true_eq]
    intro hceq
    subst hceq
    exact hA hc
  have hafter : afterSlashOf ('/' :: ("nix/store/".data ++ (A ++ '/' :: rest)))
      = "nix/store/".data ++ (A ++ '/' :: rest) := rfl
  have hlead : leadOf ('/' :: ("nix/store/".data ++ (A ++ '/' :: rest))) = ['/'] := rfl
  have hdrop10 : ("nix/store/".data ++ (A ++ '/' :: rest)).drop 10 = A ++ '/' :: rest := by
    have := List.drop_left "nix/store/".data (A ++ '/' :: rest)
    simpa using this
  have htw : (A ++ '/' :: rest).takeWhile (fun c => decide (c ≠ '/')) = A := by
    rw [takeWhile_append_all _ _ hAall]
    simp
  have hdw : (A ++ '/' :: rest).dropWhile (fun c => decide (c ≠ '/')) = '/' :: rest := by
    rw [dropWhile_append_all _ _ hAall]
    simp
  have hdwslash : List.dropWhile (fun c => decide (c = '/'))
      (['/'] ++ "nix/store/".data ++ A) = "nix/store/".data ++ A := by
    have e1 : (['/'] ++ "nix/store/".data ++ A) = '/' :: ("nix/store/".data ++ A) := by
      simp
    rw [e1, List.dropWhile_cons]
    rw [if_pos (by decide)]
    rw [List.dropWhile_append]
    rw [show List.dropWhile (fun c => decide (c = '/')) "nix/store/".data
        = "nix/store/".data from by decide]
    simp
  simp only [parseFullNixStorePath, hafter, hlead, hdrop10, htw, hdw,
    isPrefixOf_append_self, if_true, if_neg hne, hdwslash,
    trimStartMatchesStr_tag_once hA, optSlashRest]

end NarToolbox
namespace NarToolbox

theorem leadOf_afterSlashOf_length (s : List Char) :
    (leadOf s).length + (afterSlashOf s).length = s.length := by
  cases s with
  | nil => rfl
  | cons c cs =>
      by_cases hc : c = '/'
      · subst hc
        simp [leadOf, afterSlashOf]
        omega
      · simp [leadOf, afterSlashOf, hc]

theorem takeHash32_short {l : List Char} (hl : l.length < 32) :
    takeHash32 (trimStartMatchesStr "nix/store/".data l) = [] := by
  have h2 := trimStartStrGo_length_le l.length "nix/store/".data l
  rw [takeHash32, trimStartMatchesStr, if_neg]
  omega

/-- C5 amended: every input shorter than 32 characters fails the bare-hash
parse; overall resolution fails (404) exactly when the input does not match
the full `nix/store` form, and when it does match that form, resolution
succeeds with an empty content hash. -/
theorem claim5_short_input_amended (s : List Char) (hlen : s.length < 32) :
    parseHashOnlyPath s = none ∧
    (fullFormApplies s = false → NixStorePath.parse s = none) ∧
    (fullFormApplies s = true →
      ∃ fp, NixStorePath.parse s = some (NixStorePath.mk [] fp)) := by
  have ha : parseHashOnlyPath s = none := by
    rw [parseHashOnlyPath, if_neg (by omega)]
  refine ⟨ha, ?_, ?_⟩
  · intro hff
    have hfull : parseFullNixStorePath s = none := by
      cases hp : ("nix/store/".data).isPrefixOf (afterSlashOf s) with
      | false => simp [parseFullNixStorePath, hp]
      | true =>
          have hseg : ((afterSlashOf s).drop 10).takeWhile (fun c => decide (c ≠ '/')) = [] := by
            rw [fullFormApplies] at hff
            simpa [hp] using hff
          simp only [parseFullNixStorePath, hp, if_true, eq_self_iff_true, hseg]
    simp only [NixStorePath.parse, parseNixStorePath, hfull, ha]
    rfl
  · intro hff
    have hp : ("nix/store/".data).isPrefixOf (afterSlashOf s) = true := by
      rw [fullFormApplies] at hff
      exact ((Bool.and_eq_true _ _).mp hff).1
    have hseg : ((afterSlashOf s).drop 10).takeWhile (fun c => decide (c ≠ '/')) ≠ [] := by
      rw [fullFormApplies] at hff
      have := ((Bool.and_eq_true _ _).mp hff).2
      simpa using this
    have hslen : 10 ≤ (afterSlashOf s).length := by
      have := List.IsPrefix.length_le (List.isPrefixOf_iff_prefix.mp hp)
      simpa using this
    have hseg_le : (((afterSlashOf s).drop 10).takeWhile (fun c => decide (c ≠ '/'))).length
        ≤ (afterSlashOf s).length - 10 := by
      have h := List.Sublist.length_le
        (@List.takeWhile_sublist _ ((afterSlashOf s).drop 10) (fun c => decide (c ≠ '/')))
      simpa [List.length_drop] using h
    have hlead := leadOf_afterSlashOf_length s
    have happlen : (leadOf s ++ "nix/store/".data ++
        ((afterSlashOf s).drop 10).takeWhile (fun c => decide (c ≠ '/'))).length < 32 := by
      rw [List.length_append, List.length_append]
      have h10 : ("nix/store/".data).length = 10 := rfl
      omega
    have hdrople : (List.dropWhile (fun c => decide (c = '/'))
        (leadOf s ++ "nix/store/".data ++
          ((afterSlashOf s).drop 10).takeWhile (fun c => decide (c ≠ '/')))).length < 32 :=
      Nat.lt_of_le_of_lt (List.Sublist.length_le (List.dropWhile_sublist _)) happlen
    have hhash := takeHash32_short hdrople
    rcases hopt : optSlashRest (((afterSlashOf s).drop 10).dropWhile
        (fun c => decide (c ≠ '/'))) with _ | r
    · refine ⟨none, ?_⟩
      simp only [NixStorePath.parse, parseNixStorePath, parseFullNixStorePath, hp,
        eq_self_iff_true, if_true, if_neg hseg, hopt, hhash]
      rfl
    · refine ⟨some (trimEndSlashes r), ?_⟩
      simp only [NixStorePath.parse, parseNixStorePath, parseFullNixStorePath, hp,
        eq_self_iff_true, if_true, if_neg hseg, hopt, hhash]
      rfl

/-- C5 amendment witness: applied at `nix/store/a` (11 characters), which
matches the full form and resolves with an empty hash. -/
theorem claim5_short_input_amended_witness :
    ("nix/store/a".data).length < 32 ∧
    (parseHashOnlyPath "nix/store/a".data = none ∧
      (fullFormApplies "nix/store/a".data = false →
        NixStorePath.parse "nix/store/a".data = none) ∧
      (fullFormApplies "nix/store/a".data = true →
        ∃ fp, NixStorePath.parse "nix/store/a".data = some (NixStorePath.mk [] fp))) :=
  ⟨by decide, claim5_short_input_amended "nix/store/a".data (by decide)⟩

end NarToolbox
namespace NarToolbox

/-- C7 amended: for every request whose intra-archive path matches no file
under the walker's actual rule — a file entry matches iff its name equals the
entire remaining suffix at its depth, with every directory descended into, and
a root `File` always matches — nothing is sent into the relay and the client
observes status 200 with a zero-byte streamed body. -/
theorem claim7_no_match_amended (p : List Char) (e : Env) (sp : NixStorePath)
    (st : Nat) (body : List Char) (ni : NarInfo) (d : Decoder) (ns : Nat) (tree : Node)
    (hp : NixStorePath.parse p = some sp)
    (hni : e.narinfo = some (st, body))
    (hparse : parseNarInfo body = some ni)
    (hsel : selectDecoder ni.compression = Except.ok d)
    (hnar : e.nar = some (ns, tree))
    (hok : isSuccess ns = true)
    (hnm : noMatchNode tree (targetOf sp) = true) :
    handle p e = HRes.stream 200 [] := by
  obtain ⟨ni1, ni2⟩ := e
  simp only at hni hnar
  subst hni hnar
  simp only [handle, hp, hparse, hok, hsel, if_true]
  rw [noMatchNode_sends_nothing tree (targetOf sp) hnm]

/-- C7 amendment witness: a request for `b/c` against the tree `{a: [9]}`,
where no file matches, streams a zero-byte 200 body. -/
theorem claim7_no_match_amended_witness :
    handle ("aaaaaaaaaaaaaaaaaaaaaaaaaaaaaaaa".data ++ "/b/c".data)
        (Env.mk (some (200, "URL: n".data))
          (some (200, Node.directory (Entries.cons "a".data (Node.file [9]) Entries.nil))))
      = HRes.stream 200 [] :=
  claim7_no_match_amended _ _
    (NixStorePath.mk "aaaaaaaaaaaaaaaaaaaaaaaaaaaaaaaa".data (some "b/c".data))
    200 "URL: n".data (NarInfo.mk "n".data none) Decoder.passthrough 200
    (Node.directory (Entries.cons "a".data (Node.file [9]) Entries.nil))
    (by decide) rfl (by decide) rfl rfl (by decide) (by decide)

/-- C4 amended: when the receiving end is dropped after accepting `k` chunks,
the walker delivers exactly the first `k` chunks of the live-receiver run and
completes without error; within the file being streamed, the send loop stops
at its first failed send, having performed exactly one buffer read beyond the
`k` delivered ones — but the task as a whole still drains the remaining
archive entries (see the counterexample) rather than stopping within one
buffer-read cycle. -/
theorem claim4_disconnect_amended :
    (∀ (n : Node) (t : List Char) (k : Nat),
        (searchNarD n t k (WSt.mk 0 [] 0)).delivered = (searchNar n t).take k) ∧
    (∀ (chunks : List (List Nat)) (k : Nat), k < chunks.length →
        (streamFileD chunks true k (WSt.mk 0 [] 0)).delivered = chunks.take k ∧
        (streamFileD chunks true k (WSt.mk 0 [] 0)).reads = k + 1) := by
  constructor
  · intro n t k
    have h := searchNarD_spec n t k (WSt.mk 0 [] 0) (Nat.zero_le k)
    simpa using h.2
  · intro chunks k hk
    have h := streamFileD_spec chunks true k (WSt.mk 0 [] 0) (Nat.zero_le k)
    constructor
    · simpa using h.2.1
    · have hr := h.2.2
      simp [hk] at hr
      simpa using hr

/-- C4 amendment witness: the stream-loop part applied with two chunks and a
receiver accepting one send. -/
theorem claim4_disconnect_amended_witness :
    (1 : Nat) < ([[5], [6]] : List (List Nat)).length ∧
    ((streamFileD [[5], [6]] true 1 (WSt.mk 0 [] 0)).delivered
        = ([[5], [6]] : List (List Nat)).take 1 ∧
      (streamFileD [[5], [6]] true 1 (WSt.mk 0 [] 0)).reads = 1 + 1) :=
  ⟨by decide, claim4_disconnect_amended.2 [[5], [6]] 1 (by decide)⟩

end NarToolbox
namespace NarToolbox

/-- C8 amended: for every string `"/nix/store/" + h + "-" + name + "/" + rest`
where `h` is exactly 32 characters containing no `'/'` and `name` contains no
`'/'`, resolution succeeds with hash `h` (the `-name` suffix discarded) and
intra-archive path `rest` with trailing slashes stripped. -/
theorem claim8_full_form_amended (h name rest : List Char)
    (hlen : h.length = 32) (hh : '/' ∉ h) (hn : '/' ∉ name) :
    NixStorePath.parse
        ('/' :: ("nix/store/".data ++ ((h ++ '-' :: name) ++ '/' :: rest)))
      = some (NixStorePath.mk h (some (trimEndSlashes rest))) := by
  have hA : '/' ∉ (h ++ '-' :: name) := by
    intro hin
    rcases List.mem_append.mp hin with hin | hin
    · exact hh hin
    · rcases List.mem_cons.mp hin with h0 | hin2
      · exact absurd h0 (by decide)
      · exact hn hin2
  have hne : (h ++ '-' :: name) ≠ [] := by simp
  have hfull := parseFull_shape rest hA hne
  have hhash : takeHash32 (h ++ '-' :: name) = h := by
    have hlenA : 32 ≤ (h ++ '-' :: name).length := by
      rw [List.length_append]
      omega
    rw [takeHash32, if_pos hlenA, ← hlen, List.take_left]
  rw [hhash] at hfull
  simp only [NixStorePath.parse, parseNixStorePath, hfull]
  rfl

/-- C8 amendment witness: the theorem applied at a concrete slash-free hash,
name, and rest with a trailing slash. -/
theorem claim8_full_form_amended_witness :
    (("aaaaaaaaaaaaaaaaaaaaaaaaaaaaaaaa".data).length = 32 ∧
      '/' ∉ "aaaaaaaaaaaaaaaaaaaaaaaaaaaaaaaa".data ∧ '/' ∉ "foo".data) ∧
    NixStorePath.parse
        ('/' :: ("nix/store/".data ++
          (("aaaaaaaaaaaaaaaaaaaaaaaaaaaaaaaa".data ++ '-' :: "foo".data)
            ++ '/' :: "bin/x/".data)))
      = some (NixStorePath.mk "aaaaaaaaaaaaaaaaaaaaaaaaaaaaaaaa".data
          (some (trimEndSlashes "bin/x/".data))) :=
  ⟨⟨by decide, by decide, by decide⟩,
    claim8_full_form_amended "aaaaaaaaaaaaaaaaaaaaaaaaaaaaaaaa".data "foo".data
      "bin/x/".data (by decide) (by decide) (by decide)⟩

end NarToolbox
